import Mathlib

set_option maxRecDepth 10000

/-!
Verification of the in-memory leaderboard engine of `src/backend/main.go`.

The engine keeps a set of users (id, username, pre-computed lowercase
username, rating, rank), a rating-ordered slice `sortedUsers` with lazily
recomputed competition ranks (`sortUsersLocked`), a name-ordered slice and
first-character buckets for prefix search (`SearchUsers`), a short-TTL page
cache for `GetLeaderboard`, and a batched mutation entry point
(`updateRandomScores`) with a sort threshold of 50 pending updates.

Go strings are byte sequences compared bytewise; the generated data is
ASCII, so names and ids are modelled as `List Char` with bytewise
lexicographic comparison `ltb`.  Go `int` arithmetic is modelled on
`Int`/`Nat` (values stay far from overflow); Go's truncated integer
division is `Int.tdiv`, and a Go runtime panic (division by zero, slice
bounds out of range) is modelled by an `Option` result of `none`.
-/

/-- Bytewise lexicographic strict comparison of two character lists,
modelling Go's `<` on strings (for the ASCII data of this program). -/
def ltb : List Char → List Char → Bool
  | [], [] => false
  | [], _ :: _ => true
  | _ :: _, [] => false
  | a :: as, b :: bs => if a < b then true else if b < a then false else ltb as bs

/-- The `User` struct of `main.go` (lines 17-23): ID, Username, pre-computed
lowercase username, Rating, Rank. -/
structure User where
  id : List Char
  username : List Char
  usernameLower : List Char
  rating : Int
  rank : Nat
deriving DecidableEq, Inhabited, Repr

/-- Insert into a list that is already ordered by `le`. -/
def insertLe (le : α → α → Bool) (a : α) : List α → List α
  | [] => [a]
  | b :: l => if le a b then a :: b :: l else b :: insertLe le a l

/-- Model of Go's `sort.Slice(s, less)`: the stdlib only guarantees that
the slice ends up ordered by `less` (the sort is not stable), i.e. the
result is some permutation that is `Pairwise le` for `le a b = !less b a`.
An insertion sort by `le` produces such an ordering and is structurally
recursive, hence computable by the kernel. -/
def sortBy (le : α → α → Bool) : List α → List α
  | [] => []
  | a :: l => insertLe le a (sortBy le l)

/-- The comparison function passed to `sort.Slice` in `sortUsersLocked`
(main.go lines 154-159): rating descending, ties broken by ID ascending. -/
def rankLess (a b : User) : Bool :=
  if a.rating = b.rating then ltb a.id b.id else decide (b.rating < a.rating)

/-- Since `sort.Slice` guarantees the result is ordered so that for `i < j` the
comparison `less (l j) (l i)` is false; the corresponding total preorder. -/
def rankLe (a b : User) : Bool := !(rankLess b a)

/-- Overwrite the `Rank` field of a user. -/
def setRank (r : Nat) (u : User) : User := { u with rank := r }

/-- The rank-assignment loop of `sortUsersLocked` (main.go lines 161-174):
walk the sorted slice run by run (maximal groups of equal rating), give
every member of a run the running rank, and advance the rank by the run's
length (competition ranking). -/
def assignRuns : Nat → List User → List User
  | _, [] => []
  | currentRank, u :: rest =>
      let run := u :: rest.takeWhile (fun v => v.rating = u.rating)
      run.map (setRank currentRank) ++
        assignRuns (currentRank + run.length)
          (rest.dropWhile (fun v => v.rating = u.rating))
termination_by _ l => l.length
decreasing_by
  simp only [List.length_cons]
  exact Nat.lt_succ_of_le (List.Sublist.length_le (List.dropWhile_sublist _))

/-- The function `sortUsersLocked` (main.go lines 152-174), as the resulting contents of
the `sortedUsers` slice: sort by (rating descending, id ascending) and
assign competition ranks starting from 1. -/
def sortUsersLocked (users : List User) : List User :=
  assignRuns 1 (sortBy rankLe users)

/-- Clamp a prospective rating into `[100, 5000]`
(main.go lines 211-216). -/
def clamp (x : Int) : Int :=
  if x < 100 then 100 else if x > 5000 then 5000 else x

/-- One iteration of the mutation loop of `updateRandomScores`
(main.go lines 201-226).  The accumulator carries the users slice and the
`updateCount`, `updated`, `sameRating` counters; a mutation is the index of
the randomly picked user together with the random rating change. -/
def applyOne (acc : List User × Nat × Nat × Nat) (m : Nat × Int) :
    List User × Nat × Nat × Nat :=
  let users := acc.1
  let u := users.getD m.1 default
  let newRating := clamp (u.rating + m.2)
  if newRating ≠ u.rating then
    (users.set m.1 { u with rating := newRating },
      acc.2.1 + 1, acc.2.2.1 + 1, acc.2.2.2)
  else
    (users, acc.2.1, acc.2.2.1, acc.2.2.2 + 1)

/-- The whole mutation loop over a batch (the `for i := 0; i < count` loop
of `updateRandomScores`), starting from the store's current users and
pending-update counter. -/
def applyBatch (users : List User) (cnt : Nat) (batch : List (Nat × Int)) :
    List User × Nat × Nat × Nat :=
  batch.foldl applyOne (users, cnt, 0, 0)

/-- A leaderboard page cache entry (main.go lines 60-63); the timestamp is
an abstract clock tick. -/
structure CacheEntry where
  data : List User
  timestamp : Nat
deriving DecidableEq, Repr

/-- The mutable state of the `UserStore` relevant to ranking
(main.go lines 25-58): the contents of the `sortedUsers` slice (ranks are
fields of the users themselves), the `needsSorting` flag, the pending
`updateCount`, and the page cache keyed by the raw `(page, limit)` pair. -/
structure UserStore where
  users : List User
  needsSorting : Bool
  updateCount : Nat
  cache : List ((Int × Int) × CacheEntry)
deriving DecidableEq, Repr

/-- The `sortThreshold` constant (main.go line 74): re-sort after 50 pending updates. -/
def sortThreshold : Nat := 50

/-- The `cacheTTL` constant (main.go line 73), in abstract clock ticks. -/
def cacheTTL : Nat := 1

/-- The `clearCache` helper (main.go lines 183-187). -/
def clearCache (s : UserStore) : UserStore := { s with cache := [] }

/-- The effect of calling `sortUsersLocked` on the store (main.go lines
152-180): rebuild the ranked slice, clear `needsSorting`, reset the pending
counter, clear the cache — all in one critical section. -/
def rebuildStore (s : UserStore) : UserStore :=
  { users := sortUsersLocked s.users, needsSorting := false,
    updateCount := 0, cache := [] }

/-- A single score mutation as performed by `updateRandomScores` for a
batch of one (main.go lines 201-231, before the threshold policy): clamp,
apply only if the clamped value differs, bump the pending counter and mark
the index dirty exactly when something changed. -/
def mutateScore (s : UserStore) (idx : Nat) (change : Int) : UserStore :=
  let r := applyBatch s.users s.updateCount [(idx, change)]
  if r.2.2.1 > 0 then
    { s with users := r.1, updateCount := r.2.1, needsSorting := true }
  else
    { s with users := r.1 }

/-- The mutation entry point `updateRandomScores` (main.go lines 190-248) for a given batch of
(index, rating change) picks: run the mutation loop; if anything changed,
mark dirty and either do a full rebuild (threshold reached) or just clear
the cache.  The returned flag records whether the full rebuild ran (the
"Triggered sort" branch). -/
def updateRandomScores (s : UserStore) (batch : List (Nat × Int)) :
    UserStore × Bool :=
  if s.users.length = 0 then (s, false)
  else
    let r := applyBatch s.users s.updateCount batch
    if r.2.2.1 > 0 then
      let s1 : UserStore :=
        { s with users := r.1, updateCount := r.2.1, needsSorting := true }
      if sortThreshold ≤ r.2.1 then (rebuildStore s1, true)
      else (clearCache s1, false)
    else ({ s with users := r.1 }, false)

/-- The page computation of `GetLeaderboard`'s cache-miss path
(main.go lines 374-400): clamp page/limit, slice, and compute totals.  The
boolean records the early `start >= total` return (which skips the cache
store).  With the clamps, `start ≥ 0` and `start ≤ end ≤ total`, so the Go
slice and division are safe on this path. -/
def lbCompute (users : List User) (page limit : Int) :
    (List User × Nat × Int) × Bool :=
  let page1 := if page < 1 then 1 else page
  let limit1 := if limit < 1 then 45 else limit
  let total := users.length
  let start := (page1 - 1) * limit1
  if (total : Int) ≤ start then (([], total, 0), true)
  else
    let e := if (total : Int) < start + limit1 then (total : Int) else start + limit1
    (((users.drop start.toNat).take (e - start).toNat, total,
        Int.tdiv ((total : Int) + limit1 - 1) limit1), false)

/-- Go map lookup on the cache association list. -/
def lookupCache (cache : List ((Int × Int) × CacheEntry)) (k : Int × Int) :
    Option CacheEntry :=
  (cache.find? (fun kv => kv.1 = k)).map (·.2)

/-- The cache-miss path of `GetLeaderboard` (main.go lines 362-413): rebuild
if dirty, compute the page with clamped inputs, and cache the result under
the raw `(page, limit)` key unless the early empty return fired. -/
def getLeaderboardMiss (s : UserStore) (page limit : Int) (now : Nat) :
    Option (List User × Nat × Int × Nat) × UserStore :=
  let s1 := if s.needsSorting then rebuildStore s else s
  let r := lbCompute s1.users page limit
  if r.2 then
    (some (r.1.1, r.1.2.1, r.1.2.2, s1.updateCount), s1)
  else
    (some (r.1.1, r.1.2.1, r.1.2.2, s1.updateCount),
      { s1 with cache :=
          ((page, limit), ⟨r.1.1, now⟩) :: s1.cache })

/-- The listing read `GetLeaderboard` (main.go lines 348-414).  Returns (data, total,
totalPages, updateCount) and the possibly-updated store.  On a fresh cache
hit the totals are recomputed from the raw `limit`; `limit = 0` there is a
Go integer division by zero, i.e. a panic, modelled as `none`. -/
def getLeaderboard (s : UserStore) (page limit : Int) (now : Nat) :
    Option (List User × Nat × Int × Nat) × UserStore :=
  match lookupCache s.cache (page, limit) with
  | some e =>
    if now - e.timestamp ≤ cacheTTL then
      if limit = 0 then (none, s)
      else
        (some (e.data, s.users.length,
          Int.tdiv ((s.users.length : Int) + limit - 1) limit, s.updateCount), s)
    else
      getLeaderboardMiss s page limit now
  | none => getLeaderboardMiss s page limit now

/-- The rank lookup `GetUserRank` (main.go lines 416-442): look the user up by name (the
`usersByName` map holds exactly the users of the slice, keyed by their
unique usernames, so it is modelled by `find?`), and count users with the
same rating.  No rebuild happens on this path.  Returns the found user
(with its stored rank) and the tie count, or `none` for an absent name. -/
def getUserRank (s : UserStore) (username : List Char) : Option (User × Nat) :=
  match s.users.find? (fun u => decide (u.username = username)) with
  | none => none
  | some u => some (u, s.users.countP (fun v => decide (v.rating = u.rating)))

/-- The comparison used for the alphabetical sorts in `generateUsers`
(main.go lines 126-128 and 132-134): lowercase username ascending. -/
def nameLess (a b : User) : Bool := ltb a.usernameLower b.usernameLower

/-- The total preorder a `sort.Slice` with `nameLess` leaves the slice
sorted under. -/
def nameLe (a b : User) : Bool := !(nameLess b a)

/-- The `sortedByName` slice as built by `generateUsers` (main.go lines
113, 126-128): all users, sorted by lowercase username. -/
def sortedByName (users : List User) : List User := sortBy nameLe users

/-- The first-character bucket for `c` as built by `generateUsers`
(main.go lines 115-119 and 131-136): the users whose (non-empty) username
starts with byte `c`, sorted by lowercase username. -/
def bucketFor (users : List User) (c : Char) : List User :=
  sortBy nameLe (users.filter (fun u => u.username.head? = some c))

/-- Whether the Go map `firstCharBuckets` has a key `c`: some user was
appended to that bucket. -/
def bucketExists (users : List User) (c : Char) : Bool :=
  users.any (fun u => u.username.head? = some c)

/-- Go's `sort.Search` binary search loop (stdlib): maintain `i < j`,
probe `h = (i+j)/2`, and converge on the least index at which `f` is true
(for a monotone `f`), or `n` if there is none.  The interval `j - i`
shrinks by at least one every iteration, so running the loop with fuel
`j - i` is exact; the fuel only makes the recursion structural. -/
def goSearchAux (f : Nat → Bool) : Nat → Nat → Nat → Nat
  | 0, i, _ => i
  | fuel + 1, i, j =>
    if i < j then
      let h := (i + j) / 2
      if f h then goSearchAux f fuel i h else goSearchAux f fuel (h + 1) j
    else i

/-- Go's `sort.Search(n, f)`. -/
def goSearch (n : Nat) (f : Nat → Bool) : Nat := goSearchAux f n 0 n

/-- The binary search of `SearchUsers` (main.go lines 278-280, 306-308):
the first index in the name-sorted list `l` whose lowercase username is
`≥ query`. -/
def searchStart (l : List User) (q : List Char) : Nat :=
  goSearch l.length (fun i => !(ltb (l.getD i default).usernameLower q))

/-- The collection loop of `SearchUsers` (main.go lines 283-297 and
311-326): scan forward from the binary-search position while the lowercase
username has the query as a prefix (sorted order lets the loop break at the
first mismatch), stopping after 1000 collected results. -/
def scanFrom (l : List User) (start : Nat) (q : List Char) : List User :=
  ((l.drop start).takeWhile (fun u => q.isPrefixOf u.usernameLower)).take 1000

/-- The match-collection phase of `SearchUsers` (main.go lines 269-330) on
a store with a clean rank index (the rebuild step of lines 261-267 is the
identity there and never touches the name index): pick the first-character
bucket for `query[0]` if the bucket exists, otherwise fall back to the full
name-sorted list, and run the binary search plus forward scan on it.  Both
branches append matches in index order and break at the first mismatch or
at 1000 results.  Only called with a query of length ≥ 2. -/
def searchCollect (users : List User) (q : List Char) : List User :=
  match q.head? with
  | none => []
  | some c =>
    let l := if bucketExists users c then bucketFor users c else sortedByName users
    scanFrom l (searchStart l q) q

/-- Whitespace trimmed by Go's `strings.TrimSpace` (restricted to the ASCII
whitespace that can occur in this program's data). -/
def isSpaceChar (c : Char) : Bool :=
  decide (c = ' ' ∨ c = '\t' ∨ c = '\n' ∨ c = '\r')

/-- Query processing `strings.ToLower(strings.TrimSpace(query))` (main.go line 255). -/
def procQuery (q : List Char) : List Char :=
  (((q.dropWhile isSpaceChar).reverse.dropWhile isSpaceChar).reverse).map
    Char.toLower

/-- The prefix search `SearchUsers` (main.go lines 251-345) on a clean store: process the
query, return an empty result for queries shorter than 2 characters,
otherwise collect the matches and paginate them with the *unclamped* page
and limit.  `results[start:end]` with `start < 0` or `end < start` is a Go
slice-bounds panic, and `limit = 0` reaches an integer division by zero;
both panics are modelled as `none`. -/
def searchUsers (users : List User) (query : List Char) (page limit : Int) :
    Option (List User × Nat × Int) :=
  let q := procQuery query
  if q.length < 2 then some ([], 0, 0)
  else
    let results := searchCollect users q
    let total := results.length
    let start := (page - 1) * limit
    if (total : Int) ≤ start then some ([], total, 0)
    else
      let e := if (total : Int) < start + limit then (total : Int) else start + limit
      if 0 ≤ start ∧ start ≤ e then
        if limit = 0 then none
        else
          some ((results.drop start.toNat).take (e - start).toNat, total,
            Int.tdiv ((total : Int) + limit - 1) limit)
      else none

/-- Rating of the entry at (0-based) position `i`. -/
def ratingAt (l : List User) (i : Nat) : Int := (l.getD i default).rating

/-- Rank of the entry at (0-based) position `i`. -/
def rankAt (l : List User) (i : Nat) : Nat := (l.getD i default).rank

/-- ID of the entry at (0-based) position `i`. -/
def idAt (l : List User) (i : Nat) : List Char := (l.getD i default).id

/-- A maximal run of equal ratings in `l`: it starts at 0-based position
`p`, has length `L ≥ 1`, all its members share the rating at `p`, and it is
preceded and followed by a boundary (start of list / end of list / a
different rating). -/
def IsMaxRun (l : List User) (p L : Nat) : Prop :=
  0 < L ∧ p + L ≤ l.length ∧
    (∀ i ∈ List.range (p + L), p ≤ i → ratingAt l i = ratingAt l p) ∧
    (p = 0 ∨ ratingAt l (p - 1) ≠ ratingAt l p) ∧
    (p + L = l.length ∨ ratingAt l (p + L) ≠ ratingAt l p)

instance (l : List User) (p L : Nat) : Decidable (IsMaxRun l p L) := by
  unfold IsMaxRun
  infer_instance

/-- A user with the given id (also used as its name) and rating, rank 0,
as concrete test data. -/
def mkUser (i : List Char) (r : Int) : User :=
  { id := i, username := i, usernameLower := i, rating := r, rank := 0 }

/-- The six-user example from the claim: ratings [50,50,40,40,40,10]. -/
def ex6 : List User :=
  [mkUser ['a'] 50, mkUser ['b'] 50, mkUser ['c'] 40,
   mkUser ['d'] 40, mkUser ['e'] 40, mkUser ['f'] 10]

/-- A one-user store in a clean state, as concrete test data. -/
def store1 : UserStore :=
  { users := [mkUser ['a'] 100], needsSorting := false,
    updateCount := 0, cache := [] }

/-- The one-user store after 49 effective single +1 mutations (pending
counter 49, one short of the threshold), as concrete test data. -/
def store49 : UserStore :=
  (List.range 49).foldl (fun s _ => (updateRandomScores s [(0, 1)]).1) store1

/-- Concrete clean two-user store: user `a` rated 170 (rank 1), user `b`
rated 160 (rank 2), exactly the state `sortUsersLocked` leaves behind. -/
def storeAB : UserStore :=
  { users :=
      [{ id := ['a'], username := ['a'], usernameLower := ['a'],
         rating := 170, rank := 1 },
       { id := ['b'], username := ['b'], usernameLower := ['b'],
         rating := 160, rank := 2 }],
    needsSorting := false, updateCount := 0, cache := [] }

/-- Concrete all-lowercase entity set for search tests: usernames "aa"
and "ab". -/
def searchStore : List User :=
  [mkUser ['a', 'a'] 150, mkUser ['a', 'b'] 140]

/-- Concrete clean store for search: usernames "aab" (rating 180, rank 1)
and "aaa" (rating 170, rank 2), listed in rank order. -/
def searchStoreRanked : List User :=
  [{ id := ['a'], username := ['a', 'a', 'b'], usernameLower := ['a', 'a', 'b'],
     rating := 180, rank := 1 },
   { id := ['b'], username := ['a', 'a', 'a'], usernameLower := ['a', 'a', 'a'],
     rating := 170, rank := 2 }]

/-! ### Sorting lemmas -/

theorem insertLe_perm (le : α → α → Bool) (a : α) (l : List α) :
    (insertLe le a l).Perm (a :: l) := by
  induction l with
  | nil => exact List.Perm.refl _
  | cons b l ih =>
    simp only [insertLe]
    by_cases h : le a b = true
    · simp [h]
    · simp only [h, if_false]
      exact ((ih.cons b).trans (List.Perm.swap a b l)).symm.symm

theorem sortBy_perm (le : α → α → Bool) (l : List α) : (sortBy le l).Perm l := by
  induction l with
  | nil => exact List.Perm.refl _
  | cons a l ih =>
    exact (insertLe_perm le a (sortBy le l)).trans (ih.cons a)

theorem mem_insertLe {le : α → α → Bool} {a x : α} {l : List α} :
    x ∈ insertLe le a l ↔ x = a ∨ x ∈ l := by
  rw [(insertLe_perm le a l).mem_iff]
  simp

theorem insertLe_pairwise (le : α → α → Bool)
    (trans : ∀ a b c, le a b = true → le b c = true → le a c = true)
    (total : ∀ a b, le a b = true ∨ le b a = true) (a : α) (l : List α)
    (h : l.Pairwise (fun x y => le x y = true)) :
    (insertLe le a l).Pairwise (fun x y => le x y = true) := by
  induction l with
  | nil => simp [insertLe]
  | cons b l ih =>
    rcases h with _ | ⟨hb, hl⟩
    simp only [insertLe]
    by_cases hab : le a b = true
    · rw [if_pos hab]
      refine List.Pairwise.cons ?_ (List.Pairwise.cons hb hl)
      intro x hx
      rcases List.mem_cons.mp hx with rfl | hx
      · exact hab
      · exact trans a b x hab (hb x hx)
    · have hba : le b a = true := (total a b).resolve_left hab
      rw [if_neg hab]
      refine List.Pairwise.cons ?_ (ih hl)
      intro x hx
      rcases mem_insertLe.mp hx with rfl | hx
      · exact hba
      · exact hb x hx

theorem sortBy_pairwise (le : α → α → Bool)
    (trans : ∀ a b c, le a b = true → le b c = true → le a c = true)
    (total : ∀ a b, le a b = true ∨ le b a = true) (l : List α) :
    (sortBy le l).Pairwise (fun x y => le x y = true) := by
  induction l with
  | nil => simp [sortBy]
  | cons a l ih => exact insertLe_pairwise le trans total a (sortBy le l) ih

/-! ### Lexicographic comparison lemmas -/

theorem ltb_cons (x y : Char) (as bs : List Char) :
    ltb (x :: as) (y :: bs) =
      (decide (x < y) || (decide (x = y) && ltb as bs)) := by
  rcases lt_trichotomy x y with h | h | h
  · simp [ltb, h, ne_of_lt h]
  · subst h
    simp [ltb, lt_irrefl]
  · simp [ltb, h, not_lt_of_gt h, (ne_of_lt h).symm]

theorem ltb_irrefl (l : List Char) : ltb l l = false := by
  induction l with
  | nil => rfl
  | cons a as ih => simp [ltb_cons, ih]

theorem ltb_trans : ∀ (a b c : List Char),
    ltb a b = true → ltb b c = true → ltb a c = true
  | a, [], _, hab, _ => by cases a <;> simp [ltb] at hab
  | _, _ :: _, [], _, hbc => by simp [ltb] at hbc
  | [], _ :: _, _ :: _, _, _ => by simp [ltb]
  | x :: as, y :: bs, z :: cs, hab, hbc => by
    simp only [ltb_cons, Bool.or_eq_true, Bool.and_eq_true, decide_eq_true_eq] at hab hbc ⊢
    rcases hab with h1 | ⟨h1, h1'⟩
    · rcases hbc with h2 | ⟨h2, h2'⟩
      · exact Or.inl (lt_trans h1 h2)
      · exact Or.inl (h2 ▸ h1)
    · rcases hbc with h2 | ⟨h2, h2'⟩
      · exact Or.inl (h1 ▸ h2)
      · exact Or.inr ⟨h1.trans h2, ltb_trans as bs cs h1' h2'⟩

theorem eq_of_not_ltb : ∀ (a b : List Char),
    ltb a b = false → ltb b a = false → a = b
  | [], [], _, _ => rfl
  | [], _ :: _, hab, _ => by simp [ltb] at hab
  | _ :: _, [], _, hba => by simp [ltb] at hba
  | x :: as, y :: bs, hab, hba => by
    simp only [ltb_cons, Bool.or_eq_false_iff, Bool.and_eq_false_iff,
      decide_eq_false_iff_not] at hab hba
    rcases lt_trichotomy x y with h | h | h
    · exact absurd h hab.1
    · subst h
      rcases hab.2 with h' | h'
      · exact absurd rfl h'
      · rcases hba.2 with h'' | h''
        · exact absurd rfl h''
        · rw [eq_of_not_ltb as bs h' h'']
    · exact absurd h hba.1

theorem not_ltb_trans {a b c : List Char}
    (hab : ltb a b = false) (hbc : ltb b c = false) : ltb a c = false := by
  by_contra h
  have hac : ltb a c = true := by
    cases hltb : ltb a c
    · exact absurd hltb h
    · rfl
  by_cases hba : ltb b a = true
  · have := ltb_trans b a c hba hac
    simp [this] at hbc
  · have hba' : ltb b a = false := by
      cases hx : ltb b a
      · rfl
      · exact absurd hx hba
    have := eq_of_not_ltb a b hab hba'
    subst this
    simp [hac] at hbc

theorem not_ltb_of_isPrefixOf : ∀ (q s : List Char),
    q.isPrefixOf s = true → ltb s q = false
  | [], [], _ => rfl
  | [], _ :: _, _ => rfl
  | _ :: _, [], h => by simp [List.isPrefixOf] at h
  | x :: qs, y :: ss, h => by
    simp only [List.isPrefixOf, Bool.and_eq_true, beq_iff_eq] at h
    rcases h with ⟨rfl, h2⟩
    simp [ltb_cons, lt_irrefl, not_ltb_of_isPrefixOf qs ss h2]

theorem ltb_of_between : ∀ (q s t : List Char),
    ltb s q = false → q.isPrefixOf s = false → q.isPrefixOf t = true →
    ltb t s = true
  | [], s, _, _, hps, _ => by simp [List.isPrefixOf] at hps
  | _ :: _, [], _, hsq, _, _ => by simp [ltb] at hsq
  | x :: qs, y :: ss, [], _, _, hpt => by simp [List.isPrefixOf] at hpt
  | x :: qs, y :: ss, z :: ts, hsq, hps, hpt => by
      simp only [List.isPrefixOf, Bool.and_eq_true, beq_iff_eq] at hpt
      rcases hpt with ⟨rfl, hpt2⟩
      simp only [ltb_cons, Bool.or_eq_false_iff, Bool.and_eq_false_iff,
        decide_eq_false_iff_not] at hsq
      simp only [ltb_cons, Bool.or_eq_true, Bool.and_eq_true, decide_eq_true_eq]
      rcases lt_trichotomy x y with h | h | h
      · exact Or.inl h
      · subst h
        simp only [List.isPrefixOf, beq_self_eq_true, Bool.true_and] at hps
        rcases hsq.2 with h' | h'
        · exact absurd rfl h'
        · exact Or.inr ⟨rfl, ltb_of_between qs ss ts h' hps hpt2⟩
      · exact absurd h hsq.1

/-! ### Comparator properties -/

theorem bool_eq_false_of_ne_true {b : Bool} (h : ¬ b = true) : b = false := by
  cases b
  · rfl
  · exact absurd rfl h

theorem rankLe_rating {a b : User} (h : rankLe a b = true) :
    b.rating ≤ a.rating := by
  simp only [rankLe, rankLess, Bool.not_eq_true'] at h
  by_cases he : b.rating = a.rating
  · exact le_of_eq he
  · rw [if_neg he] at h
    simp only [decide_eq_false_iff_not, not_lt] at h
    exact h

theorem rankLe_id {a b : User} (h : rankLe a b = true)
    (he : b.rating = a.rating) : ltb b.id a.id = false := by
  simp only [rankLe, rankLess, Bool.not_eq_true'] at h
  rwa [if_pos he] at h

theorem rankLe_trans (a b c : User) :
    rankLe a b = true → rankLe b c = true → rankLe a c = true := by
  intro hab hbc
  have hr1 := rankLe_rating hab
  have hr2 := rankLe_rating hbc
  simp only [rankLe, rankLess, Bool.not_eq_true']
  by_cases he : c.rating = a.rating
  · rw [if_pos he]
    have hba : b.rating = a.rating := le_antisymm hr1 (he ▸ hr2)
    have hcb : c.rating = b.rating := he.trans hba.symm
    exact not_ltb_trans (rankLe_id hbc hcb) (rankLe_id hab hba)
  · rw [if_neg he]
    simp only [decide_eq_false_iff_not, not_lt]
    exact le_trans hr2 hr1

theorem rankLess_asymm {a b : User} (h : rankLess a b = true) :
    rankLess b a = false := by
  simp only [rankLess] at h ⊢
  by_cases he : a.rating = b.rating
  · rw [if_pos he] at h
    rw [if_pos he.symm]
    cases hx : ltb b.id a.id
    · rfl
    · have := ltb_trans _ _ _ h hx
      rw [ltb_irrefl] at this
      exact this.symm
  · rw [if_neg he] at h
    rw [if_neg (fun hx => he hx.symm)]
    simp only [decide_eq_true_eq] at h
    simp only [decide_eq_false_iff_not, not_lt]
    exact le_of_lt h

theorem rankLe_total (a b : User) : rankLe a b = true ∨ rankLe b a = true := by
  simp only [rankLe, Bool.not_eq_true']
  cases hx : rankLess b a
  · exact Or.inl rfl
  · exact Or.inr (rankLess_asymm hx)

theorem nameLe_trans (a b c : User) :
    nameLe a b = true → nameLe b c = true → nameLe a c = true := by
  simp only [nameLe, nameLess, Bool.not_eq_true']
  exact fun hab hbc => not_ltb_trans hbc hab

theorem nameLe_total (a b : User) : nameLe a b = true ∨ nameLe b a = true := by
  simp only [nameLe, nameLess, Bool.not_eq_true']
  cases hx : ltb b.usernameLower a.usernameLower
  · exact Or.inl rfl
  · cases hy : ltb a.usernameLower b.usernameLower
    · exact Or.inr rfl
    · have := ltb_trans _ _ _ hx hy
      rw [ltb_irrefl] at this
      exact absurd this (by simp)

/-! ### Rank assignment: structural lemmas -/

theorem assignRuns_cons (b : Nat) (u : User) (rest : List User) :
    assignRuns b (u :: rest) =
      (u :: rest.takeWhile (fun v => v.rating = u.rating)).map (setRank b) ++
        assignRuns
          (b + (u :: rest.takeWhile (fun v => v.rating = u.rating)).length)
          (rest.dropWhile (fun v => v.rating = u.rating)) := by
  simp only [assignRuns]

theorem dropWhile_head_false (p : α → Bool) :
    ∀ (l : List α) (v : α) (dws : List α), l.dropWhile p = v :: dws → p v = false
  | [], v, dws, h => by simp [List.dropWhile] at h
  | a :: l, v, dws, h => by
    by_cases ha : p a = true
    · rw [List.dropWhile_cons_of_pos ha] at h
      exact dropWhile_head_false p l v dws h
    · rw [List.dropWhile_cons_of_neg ha] at h
      cases h
      exact bool_eq_false_of_ne_true ha

theorem assignRuns_proj (b : Nat) (l : List User) :
    (assignRuns b l).map (fun u => (u.rating, u.id, u.username, u.usernameLower)) =
      l.map (fun u => (u.rating, u.id, u.username, u.usernameLower)) := by
  induction b, l using assignRuns.induct with
  | case1 b => simp [assignRuns]
  | case2 b u rest run ih =>
    rw [assignRuns_cons]
    rw [List.map_append, ih, List.map_map]
    have h1 : u :: rest =
        (u :: rest.takeWhile (fun v => v.rating = u.rating)) ++
          rest.dropWhile (fun v => v.rating = u.rating) := by
      rw [List.cons_append, List.takeWhile_append_dropWhile]
    conv_rhs => rw [h1]
    rw [List.map_append]
    rfl

theorem assignRuns_length (b : Nat) (l : List User) :
    (assignRuns b l).length = l.length := by
  have := congrArg List.length (assignRuns_proj b l)
  simpa using this

theorem assignRuns_fields (b : Nat) (l : List User) (i : Nat) :
    ratingAt (assignRuns b l) i = ratingAt l i ∧
      idAt (assignRuns b l) i = idAt l i := by
  have hmap := assignRuns_proj b l
  have h := congrArg (fun xs => xs[i]?) hmap
  simp only [List.getElem?_map] at h
  unfold ratingAt idAt
  rw [List.getD_eq_getElem?_getD, List.getD_eq_getElem?_getD]
  cases h1 : (assignRuns b l)[i]? with
  | none =>
    cases h2 : l[i]? with
    | none => exact ⟨rfl, rfl⟩
    | some v => rw [h1, h2] at h; simp at h
  | some w =>
    cases h2 : l[i]? with
    | none => rw [h1, h2] at h; simp at h
    | some v =>
      rw [h1, h2] at h
      simp only [Option.map_some'] at h
      have hv : (w.rating, w.id, w.username, w.usernameLower) =
          (v.rating, v.id, v.username, v.usernameLower) := by
        exact Option.some.inj h
      simp only [Prod.mk.injEq] at hv
      simp [hv.1, hv.2.1]

theorem run_rating_eq (u : User) (rest : List User) (k : Nat)
    (hk : k < (rest.takeWhile (fun v => decide (v.rating = u.rating))).length + 1) :
    ratingAt (u :: rest) k = u.rating := by
  match k with
  | 0 => simp [ratingAt]
  | j + 1 =>
    unfold ratingAt
    rw [List.getD_cons_succ]
    have hj : j < (rest.takeWhile (fun v => decide (v.rating = u.rating))).length := by
      omega
    have hjr : j < rest.length :=
      lt_of_lt_of_le hj (List.takeWhile_prefix _).length_le
    rw [List.getD_eq_getElem _ _ hjr]
    have hel := (@List.takeWhile_prefix User rest
      (fun v => decide (v.rating = u.rating))).getElem hj
    have hmem : (rest.takeWhile (fun v => decide (v.rating = u.rating)))[j] ∈
        rest.takeWhile (fun v => decide (v.rating = u.rating)) :=
      List.getElem_mem _
    have hpred := List.mem_takeWhile_imp hmem
    simp only [decide_eq_true_eq] at hpred
    rw [← hel]
    exact hpred

theorem rating_shift (u : User) (rest : List User) (n : Nat)
    (hn : (rest.takeWhile (fun v => decide (v.rating = u.rating))).length + 1 ≤ n) :
    ratingAt (u :: rest) n =
      ratingAt (rest.dropWhile (fun v => decide (v.rating = u.rating)))
        (n - ((rest.takeWhile (fun v => decide (v.rating = u.rating))).length + 1)) := by
  unfold ratingAt
  conv_lhs =>
    rw [show u :: rest =
        (u :: rest.takeWhile (fun v => decide (v.rating = u.rating))) ++
          rest.dropWhile (fun v => decide (v.rating = u.rating)) by
      rw [List.cons_append, List.takeWhile_append_dropWhile]]
  rw [List.getD_append_right _ _ _ _ (by simpa using hn)]
  simp

theorem mapped_run_rank (b : Nat) (xs ys : List User) (k : Nat)
    (hk : k < xs.length) :
    rankAt (xs.map (setRank b) ++ ys) k = b := by
  unfold rankAt
  rw [List.getD_append _ _ _ k (by simpa using hk)]
  rw [List.getD_eq_getElem _ _ (by simpa using hk)]
  rw [List.getElem_map]
  rfl

theorem rank_append_right (b : Nat) (xs ys : List User) (n : Nat)
    (h : xs.length ≤ n) :
    rankAt (xs.map (setRank b) ++ ys) n = rankAt ys (n - xs.length) := by
  unfold rankAt
  rw [List.getD_append_right _ _ _ _ (by simpa using h)]
  simp

theorem rest_length_split (u : User) (rest : List User) :
    rest.length = (rest.takeWhile (fun v => decide (v.rating = u.rating))).length +
      (rest.dropWhile (fun v => decide (v.rating = u.rating))).length := by
  conv_lhs =>
    rw [← List.takeWhile_append_dropWhile (fun v => decide (v.rating = u.rating)) rest]
  rw [List.length_append]

theorem assignRuns_rank_start (b : Nat) (l : List User) :
    ∀ p, p < l.length → (p = 0 ∨ ratingAt l (p - 1) ≠ ratingAt l p) →
      rankAt (assignRuns b l) p = b + p := by
  induction b, l using assignRuns.induct with
  | case1 b =>
    intro p hp _
    simp at hp
  | case2 b u rest run ih =>
    intro p hp hstart
    rw [assignRuns_cons]
    have hsplit := rest_length_split u rest
    by_cases hpL : p < (rest.takeWhile (fun v => decide (v.rating = u.rating))).length + 1
    · have hp0 : p = 0 := by
        rcases hstart with h0 | hne
        · exact h0
        · by_contra hne0
          exact hne ((run_rating_eq u rest (p - 1) (by omega)).trans
            (run_rating_eq u rest p hpL).symm)
      subst hp0
      rw [mapped_run_rank b _ _ 0 (by simp)]
      omega
    · push_neg at hpL
      have hrunval : run = u :: rest.takeWhile (fun v => decide (v.rating = u.rating)) := rfl
      rw [hrunval] at ih
      rw [rank_append_right b _ _ p (by simpa using hpL)]
      have hlen : p - (u :: rest.takeWhile (fun v => decide (v.rating = u.rating))).length <
          (rest.dropWhile (fun v => decide (v.rating = u.rating))).length := by
        simp only [List.length_cons] at hpL ⊢
        simp only [List.length_cons] at hp
        omega
      have hstart' : p - (u :: rest.takeWhile (fun v => decide (v.rating = u.rating))).length = 0 ∨
          ratingAt (rest.dropWhile (fun v => decide (v.rating = u.rating)))
            (p - (u :: rest.takeWhile (fun v => decide (v.rating = u.rating))).length - 1) ≠
          ratingAt (rest.dropWhile (fun v => decide (v.rating = u.rating)))
            (p - (u :: rest.takeWhile (fun v => decide (v.rating = u.rating))).length) := by
        simp only [List.length_cons]
        by_cases hpe : p = (rest.takeWhile (fun v => decide (v.rating = u.rating))).length + 1
        · left
          omega
        · right
          rcases hstart with h0 | hne
          · omega
          · rw [rating_shift u rest (p - 1) (by omega), rating_shift u rest p (by omega)] at hne
            have he1 : p - 1 - ((rest.takeWhile (fun v => decide (v.rating = u.rating))).length + 1) =
                p - ((rest.takeWhile (fun v => decide (v.rating = u.rating))).length + 1) - 1 := by
              omega
            rw [he1] at hne
            exact hne
      rw [ih _ hlen hstart']
      simp only [List.length_cons] at hpL ⊢
      omega

theorem assignRuns_rank_const (b : Nat) (l : List User) :
    ∀ p i, p ≤ i → i < l.length →
      (∀ j, p ≤ j → j ≤ i → ratingAt l j = ratingAt l p) →
      rankAt (assignRuns b l) i = rankAt (assignRuns b l) p := by
  induction b, l using assignRuns.induct with
  | case1 b =>
    intro p i _ hi _
    simp at hi
  | case2 b u rest run ih =>
    intro p i hpi hi hconst
    rw [assignRuns_cons]
    have hsplit := rest_length_split u rest
    by_cases hiL : i < (rest.takeWhile (fun v => decide (v.rating = u.rating))).length + 1
    · rw [mapped_run_rank b _ _ i (by simp only [List.length_cons]; omega),
        mapped_run_rank b _ _ p (by simp only [List.length_cons]; omega)]
    · push_neg at hiL
      by_cases hpL : (rest.takeWhile (fun v => decide (v.rating = u.rating))).length + 1 ≤ p
      · have hrunval : run =
            u :: rest.takeWhile (fun v => decide (v.rating = u.rating)) := rfl
        rw [hrunval] at ih
        rw [rank_append_right b _ _ i (by simpa using hiL),
          rank_append_right b _ _ p (by simpa using hpL)]
        apply ih
        · simp only [List.length_cons]
          omega
        · simp only [List.length_cons] at hi ⊢
          omega
        · intro j hj1 hj2
          simp only [List.length_cons] at hj1 hj2 ⊢
          have hj3 := hconst
            (j + ((rest.takeWhile (fun v => decide (v.rating = u.rating))).length + 1))
            (by omega) (by omega)
          rw [rating_shift u rest _ (by omega)] at hj3
          rw [rating_shift u rest p (by omega)] at hj3
          have he : j + ((rest.takeWhile (fun v => decide (v.rating = u.rating))).length + 1) -
              ((rest.takeWhile (fun v => decide (v.rating = u.rating))).length + 1) = j := by
            omega
          rw [he] at hj3
          exact hj3
      · push_neg at hpL
        exfalso
        have hdwne : rest.dropWhile (fun v => decide (v.rating = u.rating)) ≠ [] := by
          intro hnil
          rw [hnil] at hsplit
          simp only [List.length_nil, Nat.add_zero] at hsplit
          simp only [List.length_cons] at hi
          omega
        obtain ⟨v, dws, hv⟩ := List.exists_cons_of_ne_nil hdwne
        have hvpred := dropWhile_head_false _ rest v dws hv
        simp only [decide_eq_false_iff_not] at hvpred
        have h1 : ratingAt (u :: rest)
            ((rest.takeWhile (fun v => decide (v.rating = u.rating))).length + 1) = v.rating := by
          rw [rating_shift u rest _ (le_refl _)]
          simp only [Nat.sub_self]
          rw [hv]
          simp [ratingAt]
        have h2 := hconst ((rest.takeWhile (fun v => decide (v.rating = u.rating))).length + 1)
          (by omega) (by omega)
        have h3 : ratingAt (u :: rest) p = u.rating := run_rating_eq u rest p hpL
        exact hvpred (by rw [← h1, h2, h3])

/-- C1: after every rebuild of the rank index (`sortUsersLocked`), the
ranked sequence is sorted by rating descending with ties broken by ID
ascending, and ranks follow competition ranking: every maximal run of
equal ratings starting at 0-based position `p` (1-based position `p+1`)
with length `L` has every member's rank equal to `p+1`, and the entry
right after the run has rank `p+L+1`. -/
theorem sortUsersLocked_rank_law (users : List User) :
    (∀ i j, i < j → j < (sortUsersLocked users).length →
        ratingAt (sortUsersLocked users) j ≤ ratingAt (sortUsersLocked users) i ∧
        (ratingAt (sortUsersLocked users) i = ratingAt (sortUsersLocked users) j →
          ltb (idAt (sortUsersLocked users) j) (idAt (sortUsersLocked users) i) = false)) ∧
    (∀ p L, IsMaxRun (sortUsersLocked users) p L →
        (∀ i ∈ List.range (p + L), p ≤ i → rankAt (sortUsersLocked users) i = p + 1) ∧
        (p + L < (sortUsersLocked users).length →
          rankAt (sortUsersLocked users) (p + L) = p + L + 1)) := by
  have hsorted := sortBy_pairwise rankLe rankLe_trans rankLe_total users
  have hfields := fun k => assignRuns_fields 1 (sortBy rankLe users) k
  unfold sortUsersLocked
  have hlen : (assignRuns 1 (sortBy rankLe users)).length =
      (sortBy rankLe users).length := assignRuns_length 1 (sortBy rankLe users)
  constructor
  · intro i j hij hj
    have hj' : j < (sortBy rankLe users).length := hlen ▸ hj
    have hi' : i < (sortBy rankLe users).length := lt_trans hij hj'
    have hle : rankLe (sortBy rankLe users)[i] (sortBy rankLe users)[j] = true :=
      List.pairwise_iff_getElem.mp hsorted i j hi' hj' hij
    have hri : ratingAt (assignRuns 1 (sortBy rankLe users)) i =
        (sortBy rankLe users)[i].rating := by
      rw [(hfields i).1]
      unfold ratingAt
      rw [List.getD_eq_getElem _ _ hi']
    have hrj : ratingAt (assignRuns 1 (sortBy rankLe users)) j =
        (sortBy rankLe users)[j].rating := by
      rw [(hfields j).1]
      unfold ratingAt
      rw [List.getD_eq_getElem _ _ hj']
    have hii : idAt (assignRuns 1 (sortBy rankLe users)) i =
        (sortBy rankLe users)[i].id := by
      rw [(hfields i).2]
      unfold idAt
      rw [List.getD_eq_getElem _ _ hi']
    have hij' : idAt (assignRuns 1 (sortBy rankLe users)) j =
        (sortBy rankLe users)[j].id := by
      rw [(hfields j).2]
      unfold idAt
      rw [List.getD_eq_getElem _ _ hj']
    constructor
    · rw [hri, hrj]
      exact rankLe_rating hle
    · intro heq
      rw [hii, hij']
      exact rankLe_id hle (by rw [← hri, ← hrj, heq])
  · intro p L hmr
    obtain ⟨hL, hpl, hconst, hstart, hend⟩ := hmr
    have hpl' : p + L ≤ (sortBy rankLe users).length := hlen ▸ hpl
    have hstart' : p = 0 ∨ ratingAt (sortBy rankLe users) (p - 1) ≠
        ratingAt (sortBy rankLe users) p := by
      rcases hstart with h0 | hne
      · exact Or.inl h0
      · right
        rw [← (hfields (p - 1)).1, ← (hfields p).1]
        exact hne
    constructor
    · intro i hi hpi
      simp only [List.mem_range] at hi
      have hcm : rankAt (assignRuns 1 (sortBy rankLe users)) i =
          rankAt (assignRuns 1 (sortBy rankLe users)) p := by
        apply assignRuns_rank_const 1 (sortBy rankLe users) p i hpi (by omega)
        intro j hj1 hj2
        rw [← (hfields j).1, ← (hfields p).1]
        exact hconst j (by simp only [List.mem_range]; omega) hj1
      rw [hcm]
      rw [assignRuns_rank_start 1 (sortBy rankLe users) p (by omega) hstart']
      omega
    · intro hplt
      have hplt' : p + L < (sortBy rankLe users).length := hlen ▸ hplt
      have hnext : p + L = 0 ∨ ratingAt (sortBy rankLe users) (p + L - 1) ≠
          ratingAt (sortBy rankLe users) (p + L) := by
        right
        rw [← (hfields (p + L - 1)).1, ← (hfields (p + L)).1]
        have hin : ratingAt (assignRuns 1 (sortBy rankLe users)) (p + L - 1) =
            ratingAt (assignRuns 1 (sortBy rankLe users)) p :=
          hconst (p + L - 1) (by simp only [List.mem_range]; omega) (by omega)
        rcases hend with hcontra | hne
        · omega
        · rw [hin]
          exact fun hx => hne (hx.symm)
      rw [assignRuns_rank_start 1 (sortBy rankLe users) (p + L) hplt' hnext]
      omega

theorem ex6_eval : sortUsersLocked ex6 =
    [{ id := ['a'], username := ['a'], usernameLower := ['a'], rating := 50, rank := 1 },
     { id := ['b'], username := ['b'], usernameLower := ['b'], rating := 50, rank := 1 },
     { id := ['c'], username := ['c'], usernameLower := ['c'], rating := 40, rank := 3 },
     { id := ['d'], username := ['d'], usernameLower := ['d'], rating := 40, rank := 3 },
     { id := ['e'], username := ['e'], usernameLower := ['e'], rating := 40, rank := 3 },
     { id := ['f'], username := ['f'], usernameLower := ['f'], rating := 10, rank := 6 }] := by
  simp [sortUsersLocked, sortBy, insertLe, assignRuns, ex6, mkUser,
    rankLe, rankLess, ltb, setRank]

/-- Witness for C1: the claim's own example, ratings [50,50,40,40,40,10].
The maximal run of 40s starts at 0-based position 2 with length 3; the
theorem yields ranks 3 for its members and rank 6 for the entry after it. -/
theorem sortUsersLocked_rank_law_witness :
    IsMaxRun (sortUsersLocked ex6) 2 3 ∧
    rankAt (sortUsersLocked ex6) 2 = 3 ∧
    rankAt (sortUsersLocked ex6) 5 = 6 := by
  have hmr : IsMaxRun (sortUsersLocked ex6) 2 3 := by
    rw [ex6_eval]
    decide
  have hlaw := (sortUsersLocked_rank_law ex6).2 2 3 hmr
  refine ⟨hmr, ?_, ?_⟩
  · exact hlaw.1 2 (by decide) (by decide)
  · have h5 := hlaw.2 (by rw [ex6_eval]; decide)
    simpa using h5

/-! ### C4: single mutation semantics -/

/-- C4: a single score mutation clamps the new rating to [100, 5000]; if
the clamped value equals the current rating the mutation has zero effect
(the whole store is unchanged: rating, pending counter, dirty flag and
cache); otherwise the clamped rating is stored at the mutated position,
the pending counter is incremented, and the index is marked dirty. -/
theorem mutateScore_spec (s : UserStore) (idx : Nat) (change : Int)
    (hidx : idx < s.users.length) :
    100 ≤ clamp ((s.users.getD idx default).rating + change) ∧
    clamp ((s.users.getD idx default).rating + change) ≤ 5000 ∧
    (clamp ((s.users.getD idx default).rating + change) =
        (s.users.getD idx default).rating →
      mutateScore s idx change = s) ∧
    (clamp ((s.users.getD idx default).rating + change) ≠
        (s.users.getD idx default).rating →
      (mutateScore s idx change).users =
        s.users.set idx { s.users.getD idx default with
          rating := clamp ((s.users.getD idx default).rating + change) } ∧
      (mutateScore s idx change).updateCount = s.updateCount + 1 ∧
      (mutateScore s idx change).needsSorting = true ∧
      (mutateScore s idx change).cache = s.cache) := by
  refine ⟨?_, ?_, ?_, ?_⟩
  · unfold clamp
    split_ifs <;> omega
  · unfold clamp
    split_ifs <;> omega
  · intro hc
    simp only [mutateScore, applyBatch, List.foldl_cons, List.foldl_nil, applyOne]
    rw [if_neg (not_not_intro hc)]
    simp
  · intro hc
    simp only [mutateScore, applyBatch, List.foldl_cons, List.foldl_nil, applyOne]
    rw [if_pos hc]
    refine ⟨?_, ?_, ?_, ?_⟩ <;> simp

/-- Witness for C4: on a one-user store with rating 100, a +50 change is
clamped to 150 (an effective change: rating applied, counter bumped, dirty
set), and a -50 change clamps back to the floor 100 (a no-op). -/
theorem mutateScore_spec_witness :
    0 < store1.users.length ∧
    (mutateScore store1 0 50).users = [mkUser ['a'] 150] ∧
    (mutateScore store1 0 50).updateCount = 1 ∧
    (mutateScore store1 0 50).needsSorting = true ∧
    mutateScore store1 0 (-50) = store1 := by
  have h := mutateScore_spec store1 0 50 (by decide)
  have h2 := mutateScore_spec store1 0 (-50) (by decide)
  have he := h.2.2.2 (by decide)
  refine ⟨by decide, ?_, ?_, he.2.2.1, h2.2.2.1 (by decide)⟩
  · rw [he.1]
    decide
  · rw [he.2.1]
    decide

/-! ### C8: rebuilds on the mutation path -/

/-- Counterexample to C8 ("a call to the mutation entry point never
performs a full rebuild"): starting from a freshly built one-user store and
applying 49 effective single mutations, the pending counter is 49; the
next mutation call reaches the threshold and runs the full rebuild itself
(the "Triggered sort" branch), so the mutator does rebuild. -/
theorem updateRandomScores_rebuild_cex :
    store49.updateCount = 49 ∧ (updateRandomScores store49 [(0, 1)]).2 = true := by
  decide

/-- C8 amended: the mutation entry point performs the full rebuild exactly
when the store is nonempty, the batch contains at least one effective
change, and the pending counter reaches the threshold (50); in that case
the post-state is the fully rebuilt store (sorted users, counter reset,
flag cleared). -/
theorem updateRandomScores_rebuild_iff (s : UserStore) (batch : List (Nat × Int)) :
    ((updateRandomScores s batch).2 = true ↔
      (0 < s.users.length ∧
        0 < (applyBatch s.users s.updateCount batch).2.2.1 ∧
        sortThreshold ≤ (applyBatch s.users s.updateCount batch).2.1)) ∧
    ((updateRandomScores s batch).2 = true →
      (updateRandomScores s batch).1.users =
        sortUsersLocked (applyBatch s.users s.updateCount batch).1 ∧
      (updateRandomScores s batch).1.updateCount = 0 ∧
      (updateRandomScores s batch).1.needsSorting = false ∧
      (updateRandomScores s batch).1.cache = []) := by
  by_cases h1 : s.users.length = 0
  · simp only [updateRandomScores]
    rw [if_pos h1]
    constructor
    · constructor
      · intro hx
        simp at hx
      · intro hx
        omega
    · intro hx
      simp at hx
  · simp only [updateRandomScores]
    rw [if_neg h1]
    by_cases h2 : (applyBatch s.users s.updateCount batch).2.2.1 > 0
    · rw [if_pos h2]
      by_cases h3 : sortThreshold ≤ (applyBatch s.users s.updateCount batch).2.1
      · rw [if_pos h3]
        constructor
        · constructor
          · intro _
            exact ⟨by omega, h2, h3⟩
          · intro _
            rfl
        · intro _
          exact ⟨rfl, rfl, rfl, rfl⟩
      · rw [if_neg h3]
        constructor
        · constructor
          · intro hx
            simp at hx
          · intro hx
            exact absurd hx.2.2 h3
        · intro hx
          simp at hx
    · rw [if_neg h2]
      constructor
      · constructor
        · intro hx
          simp at hx
        · intro hx
          exact absurd hx.2.1 h2
      · intro hx
        simp at hx

/-- Witness for the amended C8 at the concrete threshold crossing: the
50th effective mutation triggers the rebuild and resets the counter. -/
theorem updateRandomScores_rebuild_iff_witness :
    (updateRandomScores store49 [(0, 1)]).2 = true ∧
    (updateRandomScores store49 [(0, 1)]).1.users =
      sortUsersLocked (applyBatch store49.users store49.updateCount [(0, 1)]).1 ∧
    (updateRandomScores store49 [(0, 1)]).1.updateCount = 0 := by
  have hiff := (updateRandomScores_rebuild_iff store49 [(0, 1)]).1.mpr
    (by refine ⟨by decide, by decide, by decide⟩)
  have hpost := (updateRandomScores_rebuild_iff store49 [(0, 1)]).2 hiff
  exact ⟨hiff, hpost.1, hpost.2.1⟩

/-! ### C3: staleness bound -/

/-- C3: (i) when a mutation batch contains the threshold-crossing effective
mutation, the rebuild runs inside the mutation call and any subsequent
listing read returns exactly the pages of the freshly ranked, fully
mutated table (the cache was cleared, so no stale entry can answer);
(ii) the pending counter observable after a mutation call never reaches
the threshold; (iii) nor after a listing read. -/
theorem staleness_bound :
    (∀ (s : UserStore) (batch : List (Nat × Int)) (page limit : Int) (now : Nat),
      0 < s.users.length →
      0 < (applyBatch s.users s.updateCount batch).2.2.1 →
      sortThreshold ≤ (applyBatch s.users s.updateCount batch).2.1 →
      (getLeaderboard (updateRandomScores s batch).1 page limit now).1 =
        some ((lbCompute (sortUsersLocked (applyBatch s.users s.updateCount batch).1)
            page limit).1.1,
          (lbCompute (sortUsersLocked (applyBatch s.users s.updateCount batch).1)
            page limit).1.2.1,
          (lbCompute (sortUsersLocked (applyBatch s.users s.updateCount batch).1)
            page limit).1.2.2, 0)) ∧
    (∀ (s : UserStore) (batch : List (Nat × Int)),
      s.updateCount < sortThreshold →
      (updateRandomScores s batch).1.updateCount < sortThreshold) ∧
    (∀ (s : UserStore) (page limit : Int) (now : Nat),
      s.updateCount < sortThreshold →
      (getLeaderboard s page limit now).2.updateCount < sortThreshold) := by
  refine ⟨?_, ?_, ?_⟩
  · intro s batch page limit now hne heff hth
    have hstep : (updateRandomScores s batch).1 =
        rebuildStore
          { users := (applyBatch s.users s.updateCount batch).1,
            needsSorting := true,
            updateCount := (applyBatch s.users s.updateCount batch).2.1,
            cache := s.cache } := by
      simp only [updateRandomScores]
      rw [if_neg (by omega), if_pos heff, if_pos hth]
    rw [hstep]
    cases hearly : (lbCompute
        (sortUsersLocked (applyBatch s.users s.updateCount batch).1) page limit).2
    · simp [rebuildStore, getLeaderboard, lookupCache, getLeaderboardMiss, hearly]
    · simp [rebuildStore, getLeaderboard, lookupCache, getLeaderboardMiss, hearly]
  · intro s batch hlt
    simp only [updateRandomScores]
    by_cases h1 : s.users.length = 0
    · rw [if_pos h1]
      exact hlt
    · rw [if_neg h1]
      by_cases h2 : (applyBatch s.users s.updateCount batch).2.2.1 > 0
      · rw [if_pos h2]
        by_cases h3 : sortThreshold ≤ (applyBatch s.users s.updateCount batch).2.1
        · rw [if_pos h3]
          simp [rebuildStore, sortThreshold]
        · rw [if_neg h3]
          simp only [clearCache]
          omega
      · rw [if_neg h2]
        exact hlt
  · intro s page limit now hlt
    simp only [getLeaderboard]
    cases hfind : lookupCache s.cache (page, limit) with
    | some e =>
      simp only
      by_cases hts : now - e.timestamp ≤ cacheTTL
      · rw [if_pos hts]
        by_cases hl0 : limit = 0
        · rw [if_pos hl0]
          exact hlt
        · rw [if_neg hl0]
          exact hlt
      · rw [if_neg hts]
        simp only [getLeaderboardMiss]
        by_cases hns : s.needsSorting
        · rw [if_pos hns]
          cases hearly : (lbCompute (rebuildStore s).users page limit).2
          · simp [hearly, rebuildStore, sortThreshold]
          · simp [hearly, rebuildStore, sortThreshold]
        · rw [if_neg hns]
          cases hearly : (lbCompute s.users page limit).2
          · simp [hearly]
            omega
          · simp [hearly]
            omega
    | none =>
      simp only [getLeaderboardMiss]
      by_cases hns : s.needsSorting
      · rw [if_pos hns]
        cases hearly : (lbCompute (rebuildStore s).users page limit).2
        · simp [hearly, rebuildStore, sortThreshold]
        · simp [hearly, rebuildStore, sortThreshold]
      · rw [if_neg hns]
        cases hearly : (lbCompute s.users page limit).2
        · simp [hearly]
          omega
        · simp [hearly]
          omega

/-- Witness for C3: the 50th effective mutation on the concrete store both
forces the rebuild and leaves any subsequent read exact, and the pending
counter stays below the threshold after a mutation and after a read. -/
theorem staleness_bound_witness :
    (getLeaderboard (updateRandomScores store49 [(0, 1)]).1 1 10 0).1 =
      some ((lbCompute (sortUsersLocked
          (applyBatch store49.users store49.updateCount [(0, 1)]).1) 1 10).1.1,
        (lbCompute (sortUsersLocked
          (applyBatch store49.users store49.updateCount [(0, 1)]).1) 1 10).1.2.1,
        (lbCompute (sortUsersLocked
          (applyBatch store49.users store49.updateCount [(0, 1)]).1) 1 10).1.2.2, 0) ∧
    (updateRandomScores store1 [(0, 1)]).1.updateCount < sortThreshold ∧
    (getLeaderboard store1 1 10 0).2.updateCount < sortThreshold := by
  refine ⟨staleness_bound.1 store49 [(0, 1)] 1 10 0 (by decide) (by decide) (by decide),
    staleness_bound.2.1 store1 [(0, 1)] (by decide),
    staleness_bound.2.2 store1 1 10 0 (by decide)⟩

/-! ### C7: rank lookup does not rebuild -/

/-- Counterexample to C7 ("a rank lookup forces a rebuild when the index is
dirty"): `storeAB` is exactly the clean state `sortUsersLocked` produces;
after one effective mutation raising `b`'s rating to 180 the index is dirty,
yet the lookup still reports `b`'s stored rank 2, while a rebuild of the
mutated table gives `b` rank 1. -/
theorem getUserRank_stale_cex :
    storeAB.users = sortUsersLocked [mkUser ['a'] 170, mkUser ['b'] 160] ∧
    (mutateScore storeAB 1 20).needsSorting = true ∧
    (getUserRank (mutateScore storeAB 1 20) ['b']).map (fun r => r.1.rank) =
      some 2 ∧
    ((sortUsersLocked (mutateScore storeAB 1 20).users).find?
        (fun u => decide (u.username = ['b']))).map User.rank = some 1 := by
  refine ⟨?_, by decide, by decide, ?_⟩
  · simp [storeAB, sortUsersLocked, sortBy, insertLe, assignRuns, mkUser,
      rankLe, rankLess, ltb, setRank]
  · have heval : sortUsersLocked (mutateScore storeAB 1 20).users =
        [{ id := ['b'], username := ['b'], usernameLower := ['b'],
           rating := 180, rank := 1 },
         { id := ['a'], username := ['a'], usernameLower := ['a'],
           rating := 170, rank := 2 }] := by
      simp [storeAB, mutateScore, applyBatch, applyOne, clamp, sortUsersLocked,
        sortBy, insertLe, assignRuns, rankLe, rankLess, ltb, setRank]
    rw [heval]
    decide

theorem find?_set_rank (name : List Char) :
    ∀ (l : List User) (idx : Nat) (v : User),
      v.username = (l.getD idx default).username →
      v.rank = (l.getD idx default).rank →
      ((l.set idx v).find? (fun u => decide (u.username = name))).map User.rank =
        (l.find? (fun u => decide (u.username = name))).map User.rank
  | [], idx, v, _, _ => by simp
  | a :: l, 0, v, hu, hr => by
    simp only [List.set_cons_zero, List.getD_cons_zero] at hu hr ⊢
    by_cases hp : a.username = name
    · rw [List.find?_cons_of_pos _ (by simpa [hu] using hp),
        List.find?_cons_of_pos _ (by simpa using hp)]
      simp [hr]
    · rw [List.find?_cons_of_neg _ (by simpa [hu] using hp),
        List.find?_cons_of_neg _ (by simpa using hp)]
  | a :: l, idx + 1, v, hu, hr => by
    simp only [List.set_cons_succ, List.getD_cons_succ] at hu hr ⊢
    by_cases hp : a.username = name
    · rw [List.find?_cons_of_pos _ (by simpa using hp),
        List.find?_cons_of_pos _ (by simpa using hp)]
    · rw [List.find?_cons_of_neg _ (by simpa using hp),
        List.find?_cons_of_neg _ (by simpa using hp)]
      exact find?_set_rank name l idx v hu hr

/-- C7 amended: the rank-lookup path never rebuilds: a lookup after any
single mutation still returns the rank stored by the last rebuild (the
mutation changes ratings only), and looking up an absent name returns
NotFound. -/
theorem getUserRank_no_rebuild :
    (∀ (s : UserStore) (name : List Char),
      (∀ u ∈ s.users, u.username ≠ name) → getUserRank s name = none) ∧
    (∀ (s : UserStore) (idx : Nat) (change : Int) (name : List Char),
      (getUserRank (mutateScore s idx change) name).map (fun r => r.1.rank) =
        (getUserRank s name).map (fun r => r.1.rank)) := by
  constructor
  · intro s name habs
    unfold getUserRank
    have hnone : s.users.find? (fun u => decide (u.username = name)) = none := by
      rw [List.find?_eq_none]
      intro u hu
      simp [habs u hu]
    rw [hnone]
  · intro s idx change name
    by_cases hc : clamp ((s.users.getD idx default).rating + change) ≠
        (s.users.getD idx default).rating
    · have husers : (mutateScore s idx change).users =
          s.users.set idx { s.users.getD idx default with
            rating := clamp ((s.users.getD idx default).rating + change) } := by
        simp only [mutateScore, applyBatch, List.foldl_cons, List.foldl_nil, applyOne]
        rw [if_pos hc]
        simp
      have hfr := find?_set_rank name s.users idx
        { s.users.getD idx default with
          rating := clamp ((s.users.getD idx default).rating + change) }
        rfl rfl
      unfold getUserRank
      rw [husers]
      cases h1 : (s.users.set idx
          { s.users.getD idx default with
            rating := clamp ((s.users.getD idx default).rating + change) }).find?
          (fun u => decide (u.username = name)) with
      | none =>
        cases h2 : s.users.find? (fun u => decide (u.username = name)) with
        | none => rfl
        | some w =>
          rw [h1, h2] at hfr
          simp at hfr
      | some w1 =>
        cases h2 : s.users.find? (fun u => decide (u.username = name)) with
        | none =>
          rw [h1, h2] at hfr
          simp at hfr
        | some w2 =>
          rw [h1, h2] at hfr
          simp only [Option.map_some'] at hfr ⊢
          simpa using Option.some.inj hfr
    · have husers : (mutateScore s idx change).users = s.users := by
        simp only [mutateScore, applyBatch, List.foldl_cons, List.foldl_nil, applyOne]
        rw [if_neg hc]
        simp
      unfold getUserRank
      rw [husers]

/-- Witness for the amended C7: looking up an absent name on the concrete
store returns NotFound, and after an effective mutation the looked-up rank
is unchanged (still the stale stored rank). -/
theorem getUserRank_no_rebuild_witness :
    getUserRank storeAB ['z'] = none ∧
    (getUserRank (mutateScore storeAB 1 20) ['b']).map (fun r => r.1.rank) =
      (getUserRank storeAB ['b']).map (fun r => r.1.rank) := by
  exact ⟨getUserRank_no_rebuild.1 storeAB ['z'] (by decide),
    getUserRank_no_rebuild.2 storeAB 1 20 ['b']⟩

/-! ### C9: cache coherence -/

theorem lbCompute_parts (users : List User) (page limit : Int)
    (hlim : 1 ≤ limit) (h : (lbCompute users page limit).2 = false) :
    (lbCompute users page limit).1.2.1 = users.length ∧
    (lbCompute users page limit).1.2.2 =
      Int.tdiv ((users.length : Int) + limit - 1) limit := by
  unfold lbCompute at h ⊢
  simp only [if_neg (show ¬ limit < 1 by omega)] at h ⊢
  split_ifs at h ⊢
  all_goals exact ⟨rfl, rfl⟩

/-- C9: (i) two identical listing calls (same page, same positive limit)
within the TTL with no intervening operation return identical results (the
second call answers from the entry the first call cached, or recomputes the
same empty page) and leave the store unchanged; (ii) a rebuild clears the
cache, so a listing read right after it returns pages of the freshly
ranked table regardless of what was cached before. -/
theorem cache_coherence :
    (∀ (s : UserStore) (page limit : Int) (now now' : Nat),
      1 ≤ limit →
      lookupCache s.cache (page, limit) = none →
      now ≤ now' → now' - now ≤ cacheTTL →
      (getLeaderboard (getLeaderboard s page limit now).2 page limit now').1 =
        (getLeaderboard s page limit now).1 ∧
      (getLeaderboard (getLeaderboard s page limit now).2 page limit now').2 =
        (getLeaderboard s page limit now).2) ∧
    (∀ (s : UserStore) (page limit : Int) (now : Nat),
      (getLeaderboard (rebuildStore s) page limit now).1 =
        some ((lbCompute (sortUsersLocked s.users) page limit).1.1,
          (lbCompute (sortUsersLocked s.users) page limit).1.2.1,
          (lbCompute (sortUsersLocked s.users) page limit).1.2.2, 0)) := by
  constructor
  · intro s page limit now now' hlim hnone hle httl
    have hmiss : getLeaderboard s page limit now = getLeaderboardMiss s page limit now := by
      unfold getLeaderboard
      rw [hnone]
    rw [hmiss]
    have hns : (if s.needsSorting then rebuildStore s else s).needsSorting = false := by
      by_cases h : s.needsSorting
      · simp [h, rebuildStore]
      · simp [h]
    have hcache1 : lookupCache
        (if s.needsSorting then rebuildStore s else s).cache (page, limit) = none := by
      by_cases h : s.needsSorting
      · simp [h, rebuildStore, lookupCache]
      · simp [h]
        exact hnone
    simp only [getLeaderboardMiss]
    cases hr : (lbCompute (if s.needsSorting then rebuildStore s else s).users page limit).2
    · -- normal page: the first call caches the entry, the second hits it
      simp only [hr, Bool.false_eq_true, if_false]
      have hhit : lookupCache
          (((page, limit),
            (⟨(lbCompute (if s.needsSorting then rebuildStore s else s).users page limit).1.1,
              now⟩ : CacheEntry)) ::
            (if s.needsSorting then rebuildStore s else s).cache) (page, limit) =
          some ⟨(lbCompute (if s.needsSorting then rebuildStore s else s).users page limit).1.1,
            now⟩ := by
        unfold lookupCache
        rw [List.find?_cons_of_pos _ (by simp)]
        rfl
      unfold getLeaderboard
      simp only
      rw [hhit]
      simp only
      rw [if_pos (by simpa using httl), if_neg (by omega : ¬ limit = 0)]
      have hparts := lbCompute_parts
        (if s.needsSorting then rebuildStore s else s).users page limit hlim hr
      constructor
      · simp only [Option.some.injEq, Prod.mk.injEq]
        refine ⟨?_, ?_, ?_, ?_⟩ <;>
          first
          | rfl
          | trivial
          | exact hparts.1.symm
          | exact hparts.2.symm
      · rfl
    · -- page beyond the end: nothing was cached; the second call recomputes
      simp only [hr, if_true]
      have hmiss2 : getLeaderboard (if s.needsSorting then rebuildStore s else s)
          page limit now' =
          getLeaderboardMiss (if s.needsSorting then rebuildStore s else s)
            page limit now' := by
        unfold getLeaderboard
        rw [hcache1]
      rw [hmiss2]
      simp only [getLeaderboardMiss]
      rw [hns]
      simp only [Bool.false_eq_true, if_false, hr, if_true]
      refine ⟨?_, ?_⟩ <;>
        first
        | rfl
        | trivial
  · intro s page limit now
    have hmiss : getLeaderboard (rebuildStore s) page limit now =
        getLeaderboardMiss (rebuildStore s) page limit now := by
      unfold getLeaderboard
      simp [rebuildStore, lookupCache]
    rw [hmiss]
    simp only [getLeaderboardMiss, rebuildStore]
    cases hr : (lbCompute (sortUsersLocked s.users) page limit).2
    · simp [hr]
    · simp [hr]

/-- Witness for C9 on the concrete two-user store: a repeated page-1 read
within the TTL returns the identical result, and a read right after a
rebuild returns the freshly ranked page. -/
theorem cache_coherence_witness :
    ((getLeaderboard (getLeaderboard storeAB 1 1 0).2 1 1 1).1 =
      (getLeaderboard storeAB 1 1 0).1) ∧
    (getLeaderboard (rebuildStore storeAB) 1 1 0).1 =
      some ((lbCompute (sortUsersLocked storeAB.users) 1 1).1.1,
        (lbCompute (sortUsersLocked storeAB.users) 1 1).1.2.1,
        (lbCompute (sortUsersLocked storeAB.users) 1 1).1.2.2, 0) := by
  exact ⟨(cache_coherence.1 storeAB 1 1 0 1 (by decide) (by decide)
      (by decide) (by decide)).1,
    cache_coherence.2 storeAB 1 1 0⟩

/-! ### C10: pagination round-trip -/

theorem ceil_div_eq (n k : Nat) (hk : 0 < k) :
    (n + k - 1) / k = n / k + (if n % k = 0 then 0 else 1) := by
  have h1 : k * (n / k) + n % k = n := Nat.div_add_mod n k
  have h2 : n % k < k := Nat.mod_lt _ hk
  by_cases hr : n % k = 0
  · rw [if_pos hr]
    have h3 : n + k - 1 = (k - 1) + k * (n / k) := by
      rw [hr] at h1
      omega
    rw [h3, Nat.add_mul_div_left _ _ hk, Nat.div_eq_of_lt (by omega)]
    omega
  · rw [if_neg hr]
    have h3 : n + k - 1 = ((n % k - 1) + k) + k * (n / k) := by
      omega
    rw [h3, Nat.add_mul_div_left _ _ hk, Nat.add_div_right _ hk,
      Nat.div_eq_of_lt (by omega)]
    omega

theorem ceil_mul_ge (n k : Nat) (hk : 0 < k) : n ≤ ((n + k - 1) / k) * k := by
  rw [ceil_div_eq n k hk]
  have h1 : k * (n / k) + n % k = n := Nat.div_add_mod n k
  have h2 : n % k < k := Nat.mod_lt _ hk
  by_cases hr : n % k = 0
  · rw [if_pos hr, Nat.add_zero, Nat.mul_comm]
    omega
  · rw [if_neg hr, Nat.add_mul, Nat.one_mul, Nat.mul_comm]
    omega

theorem chunks_eq (l : List User) (k : Nat) :
    ∀ m, (List.range m).flatMap (fun i => (l.drop (i * k)).take k) =
      l.take (m * k) := by
  intro m
  induction m with
  | zero => simp
  | succ n ih =>
    rw [List.range_succ, List.flatMap_append, ih, List.flatMap_cons,
      List.flatMap_nil, List.append_nil, Nat.succ_mul, List.take_add]

theorem lbCompute_data (users : List User) (p k : Nat) (hp : 1 ≤ p) (hk : 1 ≤ k) :
    (lbCompute users (p : Int) (k : Int)).1.1 = (users.drop ((p - 1) * k)).take k := by
  have hcast : (((p - 1) * k : Nat) : Int) = ((p : Int) - 1) * (k : Int) := by
    push_cast [Nat.cast_sub hp]
    ring
  unfold lbCompute
  rw [if_neg (by omega : ¬ (p : Int) < 1), if_neg (by omega : ¬ (k : Int) < 1)]
  by_cases hc : (users.length : Int) ≤ ((p : Int) - 1) * (k : Int)
  · rw [if_pos hc]
    have hge : users.length ≤ (p - 1) * k := by
      rw [← hcast] at hc
      exact_mod_cast hc
    rw [List.drop_eq_nil_of_le hge]
    simp
  · rw [if_neg hc]
    rw [← hcast] at hc ⊢
    have hlt : (p - 1) * k < users.length := by
      omega
    by_cases hl : (users.length : Int) < (((p - 1) * k : Nat) : Int) + (k : Int)
    · rw [if_pos hl]
      simp only [Int.toNat_natCast]
      have h1 : ((users.length : Int) - (((p - 1) * k : Nat) : Int)).toNat =
          users.length - (p - 1) * k := by
        omega
      rw [h1]
      have hd : (users.drop ((p - 1) * k)).length = users.length - (p - 1) * k :=
        List.length_drop _ _
      rw [List.take_of_length_le (le_of_eq hd),
        List.take_of_length_le (by omega : (users.drop ((p - 1) * k)).length ≤ k)]
    · rw [if_neg hl]
      simp only [Int.toNat_natCast]
      have h1 : ((((p - 1) * k : Nat) : Int) + (k : Int) -
          (((p - 1) * k : Nat) : Int)).toNat = k := by
        omega
      rw [h1]

theorem last_page_arith (n k : Nat) (hk : 1 ≤ k) (hn : 0 < n) :
    (1 ≤ (n + k - 1) / k) ∧
    (k ⊓ (n - (((n + k - 1) / k) - 1) * k) = if n % k = 0 then k else n % k) := by
  have hmod := Nat.div_add_mod n k
  have hrk : n % k < k := Nat.mod_lt _ (by omega)
  rw [ceil_div_eq n k (by omega)]
  obtain ⟨q, hq⟩ : ∃ q, n / k = q := ⟨_, rfl⟩
  obtain ⟨r, hr⟩ : ∃ r, n % k = r := ⟨_, rfl⟩
  rw [hq, hr] at hmod ⊢
  rw [hr] at hrk
  by_cases h0 : r = 0
  · rw [if_pos h0, if_pos h0, Nat.add_zero]
    have hq1 : 1 ≤ q := by
      rcases Nat.eq_zero_or_pos q with hz | hz
      · rw [hz, Nat.mul_zero] at hmod
        omega
      · exact hz
    have hmul : (q - 1) * k = k * q - k := by
      rw [Nat.sub_mul, Nat.one_mul, Nat.mul_comm]
    rw [hmul]
    have hkm : k ≤ k * q := Nat.le_mul_of_pos_right k hq1
    generalize k * q = m at hmod hkm
    omega
  · rw [if_neg h0, if_neg h0, Nat.add_sub_cancel]
    have hmul : q * k = k * q := Nat.mul_comm _ _
    rw [hmul]
    generalize k * q = m at hmod
    omega

/-- C10: for a fixed table and any positive page size `k`, concatenating
the data of pages `1 .. ⌈n/k⌉` of the listing page computation reproduces
the whole table (no duplicates, no omissions); page 1 reports exactly
`⌈n/k⌉` total pages; and the last page has `n mod k` entries when `k` does
not divide `n`, else exactly `k`. -/
theorem pagination_roundtrip (users : List User) (k : Nat) (hk : 1 ≤ k) :
    ((List.range ((users.length + k - 1) / k)).flatMap
        (fun i => (lbCompute users ((i + 1 : Nat) : Int) (k : Int)).1.1) = users) ∧
    (0 < users.length →
      (lbCompute users (1 : Int) (k : Int)).1.2.2 =
        (((users.length + k - 1) / k : Nat) : Int)) ∧
    (0 < users.length →
      ((lbCompute users ((((users.length + k - 1) / k : Nat)) : Int) (k : Int)).1.1).length =
        if users.length % k = 0 then k else users.length % k) := by
  have hmod : k * (users.length / k) + users.length % k = users.length :=
    Nat.div_add_mod users.length k
  have hmlt : users.length % k < k := Nat.mod_lt _ (by omega)
  refine ⟨?_, ?_, ?_⟩
  · have hfun : (fun i => (lbCompute users ((i + 1 : Nat) : Int) (k : Int)).1.1) =
        (fun i => (users.drop (i * k)).take k) := by
      funext i
      rw [lbCompute_data users (i + 1) k (by omega) hk]
      simp
    rw [hfun, chunks_eq users k, List.take_of_length_le (ceil_mul_ge users.length k (by omega))]
  · intro hn
    unfold lbCompute
    rw [if_neg (by omega : ¬ (1 : Int) < 1), if_neg (by omega : ¬ (k : Int) < 1)]
    rw [if_neg (by push_cast; omega :
      ¬ (users.length : Int) ≤ ((1 : Int) - 1) * (k : Int))]
    have hcast : (((users.length + k - 1 : Nat)) : Int) =
        (users.length : Int) + (k : Int) - 1 := by
      push_cast [Nat.cast_sub (by omega : 1 ≤ users.length + k)]
      ring
    rw [Int.ofNat_tdiv, hcast]
  · intro hn
    have harith := last_page_arith users.length k hk hn
    rw [lbCompute_data users _ k harith.1 hk, List.length_take, List.length_drop]
    exact harith.2

/-- Witness for C10 at the six-user example with page size 4 (which does
not divide 6): two pages concatenate back to the table and the last page
has 6 mod 4 = 2 entries. -/
theorem pagination_roundtrip_witness :
    ((List.range ((ex6.length + 4 - 1) / 4)).flatMap
        (fun i => (lbCompute ex6 ((i + 1 : Nat) : Int) (4 : Int)).1.1) = ex6) ∧
    ((lbCompute ex6 ((((ex6.length + 4 - 1) / 4 : Nat)) : Int) (4 : Int)).1.1).length =
      if ex6.length % 4 = 0 then 4 else ex6.length % 4 := by
  exact ⟨(pagination_roundtrip ex6 4 (by decide)).1,
    (pagination_roundtrip ex6 4 (by decide)).2.2 (by decide)⟩

/-! ### C5: out-of-range pagination inputs -/

/-- C5 is a code bug: the operations do not always clamp out-of-range
inputs.  (i) `SearchUsers` paginates with the raw limit: a query with one
match and `limit = 0` reaches `(total + limit - 1) / limit`, an integer
division by zero, i.e. a Go runtime panic (`none`).  (ii) `GetLeaderboard`
only clamps on the cache-miss path and computes `totalPages` from the raw
limit on the cache-hit path: a first call with `limit = 0` stores a page
under the raw key, and an identical second call within the TTL hits that
entry and divides by zero. -/
theorem outOfRange_division_panics :
    searchUsers searchStore ['a', 'a'] 1 0 = none ∧
    (getLeaderboard storeAB 1 0 0).1 ≠ none ∧
    (getLeaderboard (getLeaderboard storeAB 1 0 0).2 1 0 0).1 = none := by
  refine ⟨by decide, by decide, by decide⟩

/-! ### Search correctness -/

theorem goSearchAux_spec (f : Nat → Bool) (n : Nat)
    (mono : ∀ a b, a ≤ b → b < n → f a = true → f b = true) :
    ∀ (fuel i j : Nat), i ≤ j → j ≤ n → j - i ≤ fuel →
      (∀ k, k < i → f k = false) → (∀ k, j ≤ k → k < n → f k = true) →
      (∀ k, k < goSearchAux f fuel i j → f k = false) ∧
      goSearchAux f fuel i j ≤ n ∧
      (goSearchAux f fuel i j < n → f (goSearchAux f fuel i j) = true)
  | 0, i, j, hij, hjn, hfuel, hleft, hright => by
    have hie : i = j := by omega
    subst hie
    exact ⟨hleft, hjn, fun hin => hright i (le_refl i) hin⟩
  | fuel + 1, i, j, hij, hjn, hfuel, hleft, hright => by
    simp only [goSearchAux]
    by_cases hlt : i < j
    · rw [if_pos hlt]
      by_cases hf : f ((i + j) / 2) = true
      · rw [if_pos hf]
        exact goSearchAux_spec f n mono fuel i ((i + j) / 2)
          (by omega) (by omega) (by omega) hleft
          (fun k hk1 hk2 => mono ((i + j) / 2) k hk1 hk2 hf)
      · rw [if_neg hf]
        refine goSearchAux_spec f n mono fuel ((i + j) / 2 + 1) j
          (by omega) hjn (by omega) ?_ hright
        intro k hk
        by_cases hki : k < i
        · exact hleft k hki
        · cases hfk : f k
          · rfl
          · exact absurd (mono k ((i + j) / 2) (by omega) (by omega) hfk) hf
    · rw [if_neg hlt]
      have hie : i = j := by omega
      subst hie
      exact ⟨hleft, hjn, fun hin => hright i (le_refl i) hin⟩

theorem pairwise_left_of_forall {α : Type} {Q : α → Prop} :
    ∀ {l : List α}, (∀ x ∈ l, Q x) → l.Pairwise (fun a _ => Q a)
  | [], _ => List.Pairwise.nil
  | a :: l, h => by
    refine List.Pairwise.cons ?_ (pairwise_left_of_forall ?_)
    · intro x _
      exact h a (List.mem_cons_self a l)
    · intro x hx
      exact h x (List.mem_cons_of_mem a hx)

theorem takeWhile_eq_filter_of_closed {α : Type} (P : α → Bool) (R : α → α → Prop) :
    ∀ (l : List α), l.Pairwise R →
      (∀ a b, R a b → P b = true → P a = true) →
      l.takeWhile P = l.filter P
  | [], _, _ => rfl
  | a :: l, hp, closed => by
    rcases hp with _ | ⟨ha, hl⟩
    cases hpa : P a
    · rw [List.takeWhile_cons_of_neg (by simp [hpa]),
        List.filter_cons_of_neg (by simp [hpa])]
      have hnil : l.filter P = [] := by
        rw [List.filter_eq_nil_iff]
        intro x hx hPx
        have := closed a x (ha x hx) hPx
        rw [hpa] at this
        exact Bool.false_ne_true this
      rw [hnil]
    · rw [List.takeWhile_cons_of_pos (by simp [hpa]),
        List.filter_cons_of_pos (by simp [hpa]),
        takeWhile_eq_filter_of_closed P R l hl closed]

theorem scanFrom_eq_filter (l : List User) (q : List Char)
    (hsor : l.Pairwise (fun a b => nameLe a b = true)) :
    (l.drop (searchStart l q)).takeWhile (fun u => q.isPrefixOf u.usernameLower) =
      l.filter (fun u => q.isPrefixOf u.usernameLower) := by
  have mono : ∀ a b, a ≤ b → b < l.length →
      (fun i => !(ltb (l.getD i default).usernameLower q)) a = true →
      (fun i => !(ltb (l.getD i default).usernameLower q)) b = true := by
    intro a b hab hb hfa
    rcases Nat.eq_or_lt_of_le hab with rfl | hlt
    · exact hfa
    · have hle := List.pairwise_iff_getElem.mp hsor a b (by omega) hb hlt
      simp only [Bool.not_eq_eq_eq_not, Bool.not_true] at hfa ⊢
      have h1 : ltb (l.getD a default).usernameLower q = false := hfa
      have h2 : ltb l[b].usernameLower l[a].usernameLower = false := by
        simpa [nameLe, nameLess, Bool.not_eq_true'] using hle
      rw [List.getD_eq_getElem _ _ (by omega : a < l.length)] at h1
      rw [List.getD_eq_getElem _ _ hb]
      exact not_ltb_trans h2 h1
  have hspec := goSearchAux_spec
    (fun i => !(ltb (l.getD i default).usernameLower q)) l.length mono
    l.length 0 l.length (by omega) (le_refl _) (by omega)
    (fun k hk => absurd hk (Nat.not_lt_zero k))
    (fun k hk1 hk2 => absurd hk2 (by omega))
  obtain ⟨hbefore, hrle, hrlt⟩ := hspec
  have hrdef : searchStart l q =
      goSearchAux (fun i => !(ltb (l.getD i default).usernameLower q))
        l.length 0 l.length := rfl
  rw [← hrdef] at hbefore hrle hrlt
  conv_rhs => rw [← List.take_append_drop (searchStart l q) l]
  rw [List.filter_append]
  have htake : (l.take (searchStart l q)).filter
      (fun u => q.isPrefixOf u.usernameLower) = [] := by
    rw [List.filter_eq_nil_iff]
    intro x hx hPx
    obtain ⟨kk, hk, hkx⟩ := List.mem_iff_getElem.mp hx
    have hklen : kk < l.length := by
      have := List.length_take (searchStart l q) l
      omega
    have hkr : kk < searchStart l q := by
      have := List.length_take (searchStart l q) l
      omega
    have hx2 : (l.take (searchStart l q))[kk] = l[kk] := List.getElem_take _
    have hpredk := hbefore kk hkr
    simp only [Bool.not_eq_eq_eq_not, Bool.not_false] at hpredk
    rw [List.getD_eq_getElem _ _ hklen] at hpredk
    have hnol : ltb l[kk].usernameLower q = false := by
      apply not_ltb_of_isPrefixOf
      rw [hx2] at hkx
      rw [hkx]
      exact hPx
    rw [hnol] at hpredk
    exact Bool.false_ne_true hpredk
  rw [htake, List.nil_append]
  apply takeWhile_eq_filter_of_closed _
    (fun a b => nameLe a b = true ∧ ltb a.usernameLower q = false)
  · apply List.Pairwise.and
    · exact (hsor.sublist (List.drop_sublist _ _))
    · apply pairwise_left_of_forall
      intro x hx
      obtain ⟨kk, hk, hkx⟩ := List.mem_iff_getElem.mp hx
      have hlen : kk < l.length - searchStart l q := by
        have := List.length_drop (searchStart l q) l
        omega
      have hrn : searchStart l q < l.length := by omega
      have hpred := mono (searchStart l q) (searchStart l q + kk)
        (by omega) (by omega) (hrlt hrn)
      simp only [Bool.not_eq_eq_eq_not, Bool.not_true] at hpred
      rw [List.getD_eq_getElem _ _ (by omega : searchStart l q + kk < l.length)] at hpred
      have hx2 : (l.drop (searchStart l q))[kk] = l[searchStart l q + kk] :=
        List.getElem_drop _
      rw [← hkx, hx2]
      exact hpred
  · intro a b hR hPb
    rcases hR with ⟨hab, haq⟩
    cases hPa : q.isPrefixOf a.usernameLower
    · have hbet := ltb_of_between q a.usernameLower b.usernameLower haq hPa hPb
      have h2 : ltb b.usernameLower a.usernameLower = false := by
        simpa [nameLe, nameLess, Bool.not_eq_true'] using hab
      rw [hbet] at h2
      exact absurd h2 (by simp)
    · rfl

theorem searchUsers_data (users : List User) (query : List Char) (p k : Nat)
    (hp : 1 ≤ p) (hk : 1 ≤ k) (hq : 2 ≤ (procQuery query).length) :
    (searchUsers users query (p : Int) (k : Int)).map (fun r => r.1) =
      some (((searchCollect users (procQuery query)).drop ((p - 1) * k)).take k) := by
  unfold searchUsers
  rw [if_neg (by omega : ¬ (procQuery query).length < 2)]
  have hcast : (((p - 1) * k : Nat) : Int) = ((p : Int) - 1) * (k : Int) := by
    push_cast [Nat.cast_sub hp]
    ring
  by_cases hc : (((searchCollect users (procQuery query)).length : Nat) : Int) ≤
      ((p : Int) - 1) * (k : Int)
  · rw [if_pos hc]
    have hge : (searchCollect users (procQuery query)).length ≤ (p - 1) * k := by
      rw [← hcast] at hc
      exact_mod_cast hc
    rw [List.drop_eq_nil_of_le hge]
    simp
  · rw [if_neg hc]
    rw [← hcast] at hc ⊢
    rw [if_pos (by constructor <;> [positivity; split_ifs <;> omega])]
    rw [if_neg (by omega : ¬ (k : Int) = 0)]
    simp only [Option.map_some', Option.some.injEq]
    by_cases hl : (((searchCollect users (procQuery query)).length : Nat) : Int) <
        (((p - 1) * k : Nat) : Int) + (k : Int)
    · rw [if_pos hl]
      simp only [Int.toNat_natCast]
      have h1 : ((((searchCollect users (procQuery query)).length : Nat) : Int) -
          (((p - 1) * k : Nat) : Int)).toNat =
          (searchCollect users (procQuery query)).length - (p - 1) * k := by
        omega
      rw [h1]
      have hd : ((searchCollect users (procQuery query)).drop ((p - 1) * k)).length =
          (searchCollect users (procQuery query)).length - (p - 1) * k :=
        List.length_drop _ _
      rw [List.take_of_length_le (le_of_eq hd), List.take_of_length_le (by omega :
        ((searchCollect users (procQuery query)).drop ((p - 1) * k)).length ≤ k)]
    · rw [if_neg hl]
      simp only [Int.toNat_natCast]
      have h1 : ((((p - 1) * k : Nat) : Int) + (k : Int) -
          (((p - 1) * k : Nat) : Int)).toNat = k := by
        omega
      rw [h1]

/-- C2: on an entity set whose usernames equal their pre-computed
lowercase forms (as `generateUsers` guarantees), prefix search collects
exactly the set of users whose lowercase name starts with the processed
query — whether or not a first-character bucket exists for its first
character — provided the match count is within the 1000-result cap; a
query shorter than 2 characters returns an empty result; and concatenating
all result pages (any positive page size) reproduces the collected
matches. -/
theorem searchUsers_correct :
    (∀ (users : List User) (query : List Char),
      (∀ u ∈ users, u.username = u.usernameLower) →
      2 ≤ (procQuery query).length →
      (users.filter (fun u => (procQuery query).isPrefixOf u.usernameLower)).length ≤ 1000 →
      (searchCollect users (procQuery query)).Perm
        (users.filter (fun u => (procQuery query).isPrefixOf u.usernameLower))) ∧
    (∀ (users : List User) (query : List Char) (page limit : Int),
      (procQuery query).length < 2 →
      searchUsers users query page limit = some ([], 0, 0)) ∧
    (∀ (users : List User) (query : List Char) (k : Nat),
      2 ≤ (procQuery query).length → 1 ≤ k →
      (List.range (((searchCollect users (procQuery query)).length + k - 1) / k)).flatMap
          (fun i => ((searchUsers users query ((i + 1 : Nat) : Int) (k : Int)).map
            (fun r => r.1)).getD []) =
        searchCollect users (procQuery query)) := by
  refine ⟨?_, ?_, ?_⟩
  · intro users query hlow hqlen hcap
    cases hq : procQuery query with
    | nil =>
      rw [hq] at hqlen
      simp at hqlen
    | cons c q' =>
      rw [hq] at hcap
      unfold searchCollect
      simp only [List.head?_cons]
      unfold scanFrom
      by_cases hb : bucketExists users c = true
      · rw [if_pos hb]
        rw [scanFrom_eq_filter (bucketFor users c) (c :: q')
          (sortBy_pairwise nameLe nameLe_trans nameLe_total _)]
        have hp1 : ((bucketFor users c).filter
            (fun u => (c :: q').isPrefixOf u.usernameLower)).Perm
            (users.filter (fun u => (c :: q').isPrefixOf u.usernameLower)) := by
          unfold bucketFor
          have hs := (sortBy_perm nameLe
            (users.filter (fun u => decide (u.username.head? = some c)))).filter
            (fun u => (c :: q').isPrefixOf u.usernameLower)
          refine hs.trans ?_
          rw [List.filter_filter]
          rw [List.filter_congr ?_]
          intro x hx
          cases hPx : (c :: q').isPrefixOf x.usernameLower
          · simp
          · simp only [Bool.true_and]
            have hxlow : x.usernameLower = c :: (x.usernameLower.tail) := by
              cases hxl : x.usernameLower with
              | nil =>
                rw [hxl] at hPx
                simp [List.isPrefixOf] at hPx
              | cons d t =>
                rw [hxl] at hPx
                simp only [List.isPrefixOf, Bool.and_eq_true, beq_iff_eq] at hPx
                rw [hPx.1]
                rfl
            rw [hlow x hx, hxlow]
            simp
        have hlen : ((bucketFor users c).filter
            (fun u => (c :: q').isPrefixOf u.usernameLower)).length ≤ 1000 := by
          rw [hp1.length_eq]
          exact hcap
        rw [List.take_of_length_le hlen]
        exact hp1
      · rw [if_neg hb]
        rw [scanFrom_eq_filter (sortedByName users) (c :: q')
          (sortBy_pairwise nameLe nameLe_trans nameLe_total _)]
        have hp1 : ((sortedByName users).filter
            (fun u => (c :: q').isPrefixOf u.usernameLower)).Perm
            (users.filter (fun u => (c :: q').isPrefixOf u.usernameLower)) :=
          (sortBy_perm nameLe users).filter _
        have hlen : ((sortedByName users).filter
            (fun u => (c :: q').isPrefixOf u.usernameLower)).length ≤ 1000 := by
          rw [hp1.length_eq]
          exact hcap
        rw [List.take_of_length_le hlen]
        exact hp1
  · intro users query page limit hqshort
    unfold searchUsers
    rw [if_pos hqshort]
  · intro users query k hqlen hk
    have hfun : (fun i => ((searchUsers users query ((i + 1 : Nat) : Int)
        (k : Int)).map (fun r => r.1)).getD []) =
        (fun i => ((searchCollect users (procQuery query)).drop (i * k)).take k) := by
      funext i
      rw [searchUsers_data users query (i + 1) k (by omega) hk hqlen]
      simp
    rw [hfun, chunks_eq _ k, List.take_of_length_le
      (ceil_mul_ge (searchCollect users (procQuery query)).length k (by omega))]

/-- Witness for C2 on the concrete two-user store: searching "aa" collects
exactly the users whose lowercase name starts with "aa", and a one-letter
query returns the empty result. -/
theorem searchUsers_correct_witness :
    (∀ u ∈ searchStore, u.username = u.usernameLower) ∧
    (searchCollect searchStore (procQuery ['a', 'a'])).Perm
      (searchStore.filter
        (fun u => (procQuery ['a', 'a']).isPrefixOf u.usernameLower)) ∧
    searchUsers searchStore ['a'] 1 45 = some ([], 0, 0) := by
  refine ⟨by decide,
    searchUsers_correct.1 searchStore ['a', 'a'] (by decide) (by decide) (by decide),
    searchUsers_correct.2.1 searchStore ['a'] 1 45 (by decide)⟩

/-! ### C6: search result order -/

/-- Counterexample to C6 ("search results are sorted by current rank
ascending before pagination"): `searchStoreRanked` is a clean store (a
fixed point of `sortUsersLocked`); searching "aa" returns both users in
name order ["aaa", "aab"], whose ranks are [2, 1] — not ascending.  There
is no rank sort pass in `SearchUsers`. -/
theorem search_not_rank_sorted_cex :
    sortUsersLocked searchStoreRanked = searchStoreRanked ∧
    (searchUsers searchStoreRanked ['a', 'a'] 1 10).map
      (fun r => r.1.map User.rank) = some [2, 1] ∧
    ¬ List.Pairwise (fun a b : Nat => a ≤ b) [2, 1] := by
  refine ⟨?_, by decide, by decide⟩
  simp [searchStoreRanked, sortUsersLocked, sortBy, insertLe, assignRuns,
    rankLe, rankLess, ltb, setRank]

theorem searchCollect_sorted (users : List User) (q : List Char) :
    (searchCollect users q).Pairwise (fun a b => nameLe a b = true) := by
  unfold searchCollect
  cases hq : q.head? with
  | none => exact List.Pairwise.nil
  | some c =>
    simp only
    have hsor : (if bucketExists users c = true then bucketFor users c
        else sortedByName users).Pairwise (fun a b => nameLe a b = true) := by
      by_cases hb : bucketExists users c = true
      · rw [if_pos hb]
        exact sortBy_pairwise nameLe nameLe_trans nameLe_total _
      · rw [if_neg hb]
        exact sortBy_pairwise nameLe nameLe_trans nameLe_total _
    refine List.Pairwise.sublist ?_ hsor
    unfold scanFrom
    exact ((List.take_sublist _ _).trans (List.takeWhile_sublist _)).trans
      (List.drop_sublist _ _)

/-- C6 amended: `SearchUsers` applies no rank sort: the collected matches
are in name-index order (lowercase username ascending), and every returned
page — a contiguous slice of that collection — is likewise in name order,
not rank order. -/
theorem searchUsers_name_order :
    (∀ (users : List User) (q : List Char),
      (searchCollect users q).Pairwise (fun a b => nameLe a b = true)) ∧
    (∀ (users : List User) (query : List Char) (page limit : Int)
        (r : List User × Nat × Int),
      searchUsers users query page limit = some r →
      r.1.Pairwise (fun a b => nameLe a b = true)) := by
  refine ⟨fun users q => searchCollect_sorted users q, ?_⟩
  intro users query page limit r h
  by_cases hlen : (procQuery query).length < 2
  · simp only [searchUsers] at h
    rw [if_pos hlen] at h
    rw [← Option.some.inj h]
    exact List.Pairwise.nil
  · simp only [searchUsers] at h
    rw [if_neg hlen] at h
    by_cases hts : ((searchCollect users (procQuery query)).length : Int) ≤
        (page - 1) * limit
    · rw [if_pos hts] at h
      rw [← Option.some.inj h]
      exact List.Pairwise.nil
    · rw [if_neg hts] at h
      by_cases hg : (0 : Int) ≤ (page - 1) * limit ∧ (page - 1) * limit ≤
          (if ((searchCollect users (procQuery query)).length : Int) <
              (page - 1) * limit + limit
            then ((searchCollect users (procQuery query)).length : Int)
            else (page - 1) * limit + limit)
      · rw [if_pos hg] at h
        by_cases hl0 : limit = 0
        · rw [if_pos hl0] at h
          exact absurd h (by simp)
        · rw [if_neg hl0] at h
          rw [← Option.some.inj h]
          refine List.Pairwise.sublist ?_
            (searchCollect_sorted users (procQuery query))
          exact ((List.take_sublist _ _).trans (List.drop_sublist _ _))
      · rw [if_neg hg] at h
        exact absurd h (by simp)

/-- Witness for the amended C6: the concrete "aa" search returns its page
in name order. -/
theorem searchUsers_name_order_witness :
    searchUsers searchStoreRanked ['a', 'a'] 1 10 =
      some ([{ id := ['b'], username := ['a', 'a', 'a'],
               usernameLower := ['a', 'a', 'a'], rating := 170, rank := 2 },
             { id := ['a'], username := ['a', 'a', 'b'],
               usernameLower := ['a', 'a', 'b'], rating := 180, rank := 1 }],
        2, 1) ∧
    List.Pairwise (fun a b => nameLe a b = true)
      [{ id := ['b'], username := ['a', 'a', 'a'],
         usernameLower := ['a', 'a', 'a'], rating := 170, rank := 2 },
       { id := ['a'], username := ['a', 'a', 'b'],
         usernameLower := ['a', 'a', 'b'], rating := 180, rank := 1 }] := by
  have heq : searchUsers searchStoreRanked ['a', 'a'] 1 10 =
      some ([{ id := ['b'], username := ['a', 'a', 'a'],
               usernameLower := ['a', 'a', 'a'], rating := 170, rank := 2 },
             { id := ['a'], username := ['a', 'a', 'b'],
               usernameLower := ['a', 'a', 'b'], rating := 180, rank := 1 }],
        2, 1) := by decide
  exact ⟨heq, searchUsers_name_order.2 searchStoreRanked ['a', 'a'] 1 10 _ heq⟩
